import Mathlib

/-!
Verification of the mlpack/fastlib proximity-search core against its
natural-language specification.

The development shallowly embeds, over exact rational arithmetic:

* the generic k-nearest-neighbour machinery (naive, single-tree and
  dual-tree modes of `ComputeNeighbors`), modelled from the spec because
  the `NeighborSearch` implementation itself is not among the sources
  (only its test `allknn_test.cc` is);
* the `RectangleTree` operations of `rectangle_tree_impl.hpp`
  (`InsertPoint`, `SplitNode`, `End`, `FurthestPointDistance`, the
  constructor);
* the statistic-fixing pass `StatFixer::FixRecursively_` and the
  work-partitioning defaults of `nbr_utils.h`.
-/

namespace MlpackSpec

/-! ## Top-k result lists

A query result entry is a pair of (squared distance, reference index).
The per-query result is a length-≤-k list kept sorted ascending by
distance, ties broken by smaller index (the deterministic tie-break the
spec demands so that traversal order cannot change the result). -/

/-- A (squared distance, reference point index) result entry. -/
abbrev DI : Type := ℚ × ℕ

/-- Ascending order on result entries: by distance, ties by index. -/
def lexLe (a b : DI) : Prop :=
  a.1 < b.1 ∨ (a.1 = b.1 ∧ a.2 ≤ b.2)

instance : DecidableRel lexLe := fun a b => by
  unfold lexLe; infer_instance

instance : IsTotal DI lexLe := by
  constructor
  intro a b
  rcases lt_trichotomy a.1 b.1 with h | h | h
  · exact Or.inl (Or.inl h)
  · rcases Nat.le_total a.2 b.2 with h2 | h2
    · exact Or.inl (Or.inr ⟨h, h2⟩)
    · exact Or.inr (Or.inr ⟨h.symm, h2⟩)
  · exact Or.inr (Or.inl h)

instance : IsTrans DI lexLe := by
  constructor
  intro a b c hab hbc
  rcases hab with h1 | ⟨h1, h1i⟩ <;> rcases hbc with h2 | ⟨h2, h2i⟩
  · exact Or.inl (h1.trans h2)
  · exact Or.inl (h2 ▸ h1)
  · exact Or.inl (h1 ▸ h2)
  · exact Or.inr ⟨h1.trans h2, h1i.trans h2i⟩

instance : IsAntisymm DI lexLe := by
  constructor
  intro a b hab hba
  rcases hab with h1 | ⟨h1, h1i⟩ <;> rcases hba with h2 | ⟨h2, h2i⟩
  · exact absurd h2 (asymm h1)
  · exact absurd h1 (h2 ▸ lt_irrefl _)
  · exact absurd h2 (h1 ▸ lt_irrefl _)
  · exact Prod.ext h1 (le_antisymm h1i h2i)

/-- Insert one candidate into a top-k list, keeping it sorted and of
length at most k (the insertion-sorted top-k list of the spec's base
case). -/
def insertTopK (k : ℕ) (s : List DI) (a : DI) : List DI :=
  (s.orderedInsert lexLe a).take k

/-- The canonical k smallest entries of a candidate list. -/
def topK (k : ℕ) (l : List DI) : List DI :=
  (l.insertionSort lexLe).take k

/-- The current k-th best (worst retained) distance: an upper bound for
every distance stored in the list (0 if the list is empty; all stored
distances are squared distances, hence nonnegative). -/
def worstDist (s : List DI) : ℚ :=
  (s.map Prod.fst).foldr max 0

theorem le_worstDist {s : List DI} {a : DI} (h : a ∈ s) : a.1 ≤ worstDist s := by
  induction s with
  | nil => cases h
  | cons x t ih =>
    rcases List.mem_cons.mp h with rfl | h
    · exact le_max_left _ _
    · exact (ih h).trans (le_max_right _ _)

theorem take_cons_take {α : Type} (x : α) (S : List α) (k : ℕ) :
    List.take k (x :: List.take k S) = List.take k (x :: S) := by
  cases k with
  | zero => rfl
  | succ m =>
    simp [List.take_succ_cons, List.take_take, Nat.min_eq_left (Nat.le_succ m)]

/-- Inserting into the k-truncation of a sorted list truncates the same
way as inserting into the full list. -/
theorem take_orderedInsert (a : DI) :
    ∀ (S : List DI) (k : ℕ), S.Sorted lexLe →
      List.take k (List.orderedInsert lexLe a (List.take k S)) =
        List.take k (List.orderedInsert lexLe a S) := by
  intro S
  induction S with
  | nil => intro k _; simp
  | cons x S ih =>
    intro k hs
    cases k with
    | zero => simp
    | succ m =>
      by_cases hax : lexLe a x
      · simp only [List.take_succ_cons, List.orderedInsert, if_pos hax]
        exact congrArg (a :: ·) (take_cons_take x S m)
      · simp only [List.take_succ_cons, List.orderedInsert, if_neg hax]
        exact congrArg (x :: ·) (ih m hs.of_cons)

theorem insertionSort_append_singleton (m : List DI) (a : DI) :
    List.insertionSort lexLe (m ++ [a]) =
      List.orderedInsert lexLe a (List.insertionSort lexLe m) := by
  have h1 : (m ++ [a]).Perm (a :: m) := by
    simp [(List.perm_append_comm : (m ++ [a]).Perm ([a] ++ m))]
  have hperm : (List.insertionSort lexLe (m ++ [a])).Perm
      (List.orderedInsert lexLe a (List.insertionSort lexLe m)) :=
    ((List.perm_insertionSort lexLe _).trans h1).trans
      (((List.perm_insertionSort lexLe m).symm.cons a).trans
        (List.perm_orderedInsert lexLe a _).symm)
  exact List.eq_of_perm_of_sorted hperm (List.sorted_insertionSort lexLe _)
    ((List.sorted_insertionSort lexLe m).orderedInsert a _)

/-- One step of top-k accumulation agrees with the canonical top-k. -/
theorem insertTopK_topK (k : ℕ) (m : List DI) (a : DI) :
    insertTopK k (topK k m) a = topK k (m ++ [a]) := by
  unfold insertTopK topK
  rw [insertionSort_append_singleton]
  exact take_orderedInsert a _ k (List.sorted_insertionSort lexLe m)

/-- Folding top-k insertion over candidates computes the canonical top-k
of all candidates seen so far; traversal order is irrelevant up to the
multiset of candidates. -/
theorem foldl_insertTopK (k : ℕ) :
    ∀ (l m : List DI),
      List.foldl (insertTopK k) (topK k m) l = topK k (m ++ l) := by
  intro l
  induction l with
  | nil => intro m; simp
  | cons a l ih =>
    intro m
    rw [List.foldl_cons, insertTopK_topK, ih]
    simp

theorem topK_nil (k : ℕ) : topK k [] = [] := by
  simp [topK]

/-- The canonical top-k is invariant under permutation of the
candidates. -/
theorem topK_perm (k : ℕ) {l₁ l₂ : List DI} (h : l₁.Perm l₂) :
    topK k l₁ = topK k l₂ := by
  unfold topK
  congr 1
  exact List.eq_of_perm_of_sorted
    ((List.perm_insertionSort lexLe l₁).trans
      (h.trans (List.perm_insertionSort lexLe l₂).symm))
    (List.sorted_insertionSort lexLe l₁) (List.sorted_insertionSort lexLe l₂)

theorem length_topK (k : ℕ) (l : List DI) : (topK k l).length ≤ k := by
  simp [topK]

theorem orderedInsert_eq_append {a : DI} :
    ∀ {s : List DI}, (∀ x ∈ s, ¬ lexLe a x) →
      s.orderedInsert lexLe a = s ++ [a] := by
  intro s
  induction s with
  | nil => intro _; rfl
  | cons x t ih =>
    intro hall
    simp only [List.orderedInsert, if_neg (hall x (List.mem_cons_self x t)),
      List.cons_append]
    exact congrArg (x :: ·) (ih fun y hy => hall y (List.mem_cons_of_mem x hy))

/-- A candidate strictly beyond the k-th best of a full list is
discarded: the insertion is a no-op. -/
theorem insertTopK_of_far {k : ℕ} {s : List DI} {a : DI}
    (hlen : s.length = k) (hfar : worstDist s < a.1) :
    insertTopK k s a = s := by
  have hall : ∀ x ∈ s, ¬ lexLe a x := by
    intro x hx hc
    have hxa : x.1 < a.1 := (le_worstDist hx).trans_lt hfar
    rcases hc with h | ⟨h, _⟩
    · exact absurd hxa (not_lt.mpr h.le)
    · exact absurd hxa (not_lt.mpr h.le)
  rw [insertTopK, orderedInsert_eq_append hall, ← hlen]
  exact List.take_left s [a]

/-- A full list is unchanged by folding in only far-away candidates
(the pruning no-op). -/
theorem foldl_insertTopK_of_far {k : ℕ} {s : List DI} {l : List DI}
    (hlen : s.length = k) (hfar : ∀ x ∈ l, worstDist s < x.1) :
    List.foldl (insertTopK k) s l = s := by
  induction l with
  | nil => rfl
  | cons a l ih =>
    rw [List.foldl_cons, insertTopK_of_far hlen (hfar a (List.mem_cons_self a l))]
    exact ih fun x hx => hfar x (List.mem_cons_of_mem a hx)

/-! ## Geometry: points, axis-aligned bounds, distance lower bounds -/

/-- A point: one rational coordinate per dimension (a column of the data
matrix). -/
abbrev Point : Type := List ℚ

/-- Squared Euclidean distance; the library computes and reports squared
distances. -/
def sqDist (p q : Point) : ℚ :=
  (List.zipWith (fun a b => (a - b) ^ 2) p q).sum

/-- An axis-aligned bound (`HRectBound`): a (lo, hi) interval per
dimension. Modelled from the spec (the bound implementation is not among
the sources). -/
abbrev Box : Type := List (ℚ × ℚ)

/-- The degenerate bound of a single point. -/
def pointBound (p : Point) : Box := p.map fun x => (x, x)

/-- Bound membership: the point lies inside the interval of every
dimension. -/
def containsB (b : Box) (p : Point) : Prop :=
  ∀ pr ∈ List.zip b p, pr.1.1 ≤ pr.2 ∧ pr.2 ≤ pr.1.2

/-- Squared separation of two intervals in one dimension (0 when they
overlap). -/
def gapSq (iv1 iv2 : ℚ × ℚ) : ℚ :=
  (max (max (iv1.1 - iv2.2) (iv2.1 - iv1.2)) 0) ^ 2

/-- `Bound.minDistance(bound)`: a lower bound on the squared distance
between any point of one box and any point of the other. Modelled from
the spec. -/
def minDistBB (b1 b2 : Box) : ℚ := (List.zipWith gapSq b1 b2).sum

theorem sqDist_nonneg : ∀ (p q : Point), 0 ≤ sqDist p q
  | [], _ => le_refl 0
  | _ :: _, [] => le_refl 0
  | a :: p, b :: q => by
    have h1 := sqDist_nonneg p q
    have h2 := sq_nonneg (a - b)
    simp only [sqDist, List.zipWith_cons_cons, List.sum_cons] at h1 ⊢
    linarith

theorem gapSq_le {lo1 hi1 lo2 hi2 x y : ℚ}
    (h1 : lo1 ≤ x) (h2 : x ≤ hi1) (h3 : lo2 ≤ y) (h4 : y ≤ hi2) :
    gapSq (lo1, hi1) (lo2, hi2) ≤ (x - y) ^ 2 := by
  have hg0 : (0 : ℚ) ≤ max (max (lo1 - hi2) (lo2 - hi1)) 0 := le_max_right _ _
  have hle : max (max (lo1 - hi2) (lo2 - hi1)) 0 ≤ |x - y| := by
    apply max_le (max_le ?_ ?_) (abs_nonneg _)
    · exact le_trans (by linarith) (le_abs_self (x - y))
    · exact le_trans (by linarith : lo2 - hi1 ≤ y - x)
        (by rw [abs_sub_comm]; exact le_abs_self (y - x))
  calc gapSq (lo1, hi1) (lo2, hi2)
      = (max (max (lo1 - hi2) (lo2 - hi1)) 0) ^ 2 := rfl
    _ ≤ |x - y| ^ 2 := pow_le_pow_left₀ hg0 hle 2
    _ = (x - y) ^ 2 := sq_abs _

/-- Soundness of the pruning bound: the box-to-box minimum distance
never overestimates the distance between points of the boxes. -/
theorem minDistBB_le_sqDist :
    ∀ (b1 b2 : Box) (p q : Point),
      b1.length = p.length → b2.length = q.length → p.length = q.length →
      containsB b1 p → containsB b2 q →
      minDistBB b1 b2 ≤ sqDist p q := by
  intro b1
  induction b1 with
  | nil =>
    intro b2 p q hl1 _ hl3 _ _
    have hp : p = [] := List.length_eq_zero.mp (by simpa using hl1.symm)
    subst hp
    have hq : q = [] := List.length_eq_zero.mp (by simpa using hl3.symm)
    subst hq
    simp [minDistBB, sqDist]
  | cons iv1 b1 ih =>
    intro b2 p q hl1 hl2 hl3 hc1 hc2
    cases p with
    | nil => simp at hl1
    | cons x p =>
      cases q with
      | nil => simp at hl3
      | cons y q =>
        cases b2 with
        | nil => simp at hl2
        | cons iv2 b2 =>
          have hx := hc1 (iv1, x) (by simp [List.zip_cons_cons])
          have hy := hc2 (iv2, y) (by simp [List.zip_cons_cons])
          have hrec := ih b2 p q (by simpa using hl1) (by simpa using hl2)
            (by simpa using hl3)
            (fun pr h => hc1 pr (by simp [List.zip_cons_cons, h]))
            (fun pr h => hc2 pr (by simp [List.zip_cons_cons, h]))
          have hgap : gapSq iv1 iv2 ≤ (x - y) ^ 2 :=
            gapSq_le hx.1 hx.2 hy.1 hy.2
          simp only [minDistBB, sqDist, List.zipWith_cons_cons, List.sum_cons]
            at hrec ⊢
          exact add_le_add hgap hrec

theorem containsB_pointBound : ∀ (p : Point), containsB (pointBound p) p := by
  intro p
  induction p with
  | nil => intro pr h; cases h
  | cons x p ih =>
    intro pr h
    simp only [pointBound, List.map_cons, List.zip_cons_cons, List.mem_cons] at h
    rcases h with rfl | h
    · exact ⟨le_refl x, le_refl x⟩
    · exact ih pr (by simpa [pointBound] using h)

theorem pointBound_length (p : Point) : (pointBound p).length = p.length := by
  simp [pointBound]

/-! ## Bound construction -/

/-- The i-th data point (matrix column `i`). -/
def pt (points : List Point) (i : ℕ) : Point := points.getD i []

/-- Grow a bound to contain one more point (`Bound.union(point)`),
dimension-wise. Modelled from the spec. -/
def unionPoint (b : Box) (p : Point) : Box :=
  List.zipWith (fun iv x => (min iv.1 x, max iv.2 x)) b p

/-- The tight bound of a list of points: the fold of `union(point)`
starting from the first point's degenerate bound. -/
def boundOf (ps : List Point) : Box :=
  match ps with
  | [] => []
  | p :: rest => rest.foldl unionPoint (pointBound p)

theorem length_unionPoint {b : Box} {p : Point} (h : b.length = p.length) :
    (unionPoint b p).length = b.length := by
  simp [unionPoint, h]

theorem containsB_unionPoint_self :
    ∀ {b : Box} {p : Point}, b.length = p.length →
      containsB (unionPoint b p) p := by
  intro b
  induction b with
  | nil =>
    intro p _ pr h
    simp [unionPoint] at h
  | cons iv b ih =>
    intro p hl pr h
    cases p with
    | nil => simp at hl
    | cons x p =>
      simp only [unionPoint, List.zipWith_cons_cons, List.zip_cons_cons,
        List.mem_cons] at h
      rcases h with rfl | h
      · exact ⟨min_le_right _ _, le_max_right _ _⟩
      · exact ih (by simpa using hl) pr (by simpa [unionPoint] using h)

theorem containsB_unionPoint_mono :
    ∀ {b : Box} {p q : Point}, containsB b q →
      containsB (unionPoint b p) q := by
  intro b
  induction b with
  | nil =>
    intro p q _ pr h
    simp [unionPoint] at h
  | cons iv b ih =>
    intro p q hc pr h
    cases p with
    | nil => simp [unionPoint] at h
    | cons x p =>
      cases q with
      | nil => simp at h
      | cons y q =>
        simp only [unionPoint, List.zipWith_cons_cons, List.zip_cons_cons,
          List.mem_cons] at h
        rcases h with rfl | h
        · have hy := hc (iv, y) (by simp [List.zip_cons_cons])
          exact ⟨le_trans (min_le_left _ _) hy.1, le_trans hy.2 (le_max_left _ _)⟩
        · have hcq : containsB b q := fun pr2 h2 =>
            hc pr2 (by simp [List.zip_cons_cons, h2])
          exact ih hcq pr (by simpa [unionPoint] using h)

theorem length_foldl_unionPoint {d : ℕ} :
    ∀ (rest : List Point) (b : Box), b.length = d →
      (∀ p ∈ rest, p.length = d) →
      (rest.foldl unionPoint b).length = d := by
  intro rest
  induction rest with
  | nil => intro b hb _; exact hb
  | cons p rest ih =>
    intro b hb hall
    rw [List.foldl_cons]
    exact ih (unionPoint b p)
      (by rw [length_unionPoint (hb.trans (hall p (List.mem_cons_self p rest)).symm)]
          exact hb)
      fun q hq => hall q (List.mem_cons_of_mem p hq)

theorem containsB_foldl_unionPoint_mono :
    ∀ (rest : List Point) (b : Box) (q : Point), containsB b q →
      containsB (rest.foldl unionPoint b) q := by
  intro rest
  induction rest with
  | nil => intro b q hq; exact hq
  | cons p rest ih =>
    intro b q hq
    exact ih (unionPoint b p) q (containsB_unionPoint_mono hq)

theorem containsB_foldl_unionPoint_mem {d : ℕ} :
    ∀ (rest : List Point) (b : Box) (q : Point), b.length = d →
      (∀ p ∈ rest, p.length = d) → q ∈ rest →
      containsB (rest.foldl unionPoint b) q := by
  intro rest
  induction rest with
  | nil => intro b q _ _ hq; cases hq
  | cons p rest ih =>
    intro b q hb hall hq
    rcases List.mem_cons.mp hq with rfl | hq
    · rw [List.foldl_cons]
      exact containsB_foldl_unionPoint_mono rest (unionPoint b q) q
        (containsB_unionPoint_self
          (hb.trans (hall q (List.mem_cons_self q rest)).symm))
    · rw [List.foldl_cons]
      exact ih (unionPoint b p) q
        (by rw [length_unionPoint (hb.trans (hall p (List.mem_cons_self p rest)).symm)]
            exact hb)
        (fun r hr => hall r (List.mem_cons_of_mem p hr)) hq

theorem boundOf_contains {d : ℕ} {ps : List Point}
    (hall : ∀ p ∈ ps, p.length = d) :
    ∀ q ∈ ps, containsB (boundOf ps) q := by
  intro q hq
  cases ps with
  | nil => cases hq
  | cons p rest =>
    have hpb : (pointBound p).length = d := by
      rw [pointBound_length]; exact hall p (List.mem_cons_self p rest)
    rcases List.mem_cons.mp hq with rfl | hq
    · exact containsB_foldl_unionPoint_mono rest (pointBound q) q
        (containsB_pointBound q)
    · exact containsB_foldl_unionPoint_mem rest (pointBound p) q hpb
        (fun r hr => hall r (List.mem_cons_of_mem p hr)) hq

theorem boundOf_length {d : ℕ} {ps : List Point} (hne : ps ≠ [])
    (hall : ∀ p ∈ ps, p.length = d) : (boundOf ps).length = d := by
  cases ps with
  | nil => exact absurd rfl hne
  | cons p rest =>
    exact length_foldl_unionPoint rest (pointBound p)
      (by rw [pointBound_length]; exact hall p (List.mem_cons_self p rest))
      fun q hq => hall q (List.mem_cons_of_mem p hq)

/-! ## The spatial tree and midpoint bulk builder (modelled from the
spec: the `KdTreeMidpointBuilder` / `SpatialNode` sources are not under
src/, only their callers are) -/

/-- A spatial tree node: a leaf owns a list of point indices, an
internal node two children; every node carries its bound. -/
inductive KdTree where
  | leaf (b : Box) (idxs : List ℕ)
  | node (b : Box) (l r : KdTree)
deriving DecidableEq

/-- The bound of a node. -/
def KdTree.bnd : KdTree → Box
  | KdTree.leaf b _ => b
  | KdTree.node b _ _ => b

/-- All point indices below a node, left to right. -/
def KdTree.idxList : KdTree → List ℕ
  | KdTree.leaf _ is => is
  | KdTree.node _ l r => l.idxList ++ r.idxList

/-- Coordinate `dim` of a point. -/
def coord (p : Point) (dim : ℕ) : ℚ := p.getD dim 0

/-- First widest dimension of a bound (descent over remaining
dimensions carrying the best seen so far). -/
def widestDimAux : List (ℚ × ℚ) → ℕ → ℚ → ℕ → ℕ
  | [], _, _, best => best
  | iv :: rest, i, bestW, best =>
    if iv.2 - iv.1 > bestW then widestDimAux rest (i + 1) (iv.2 - iv.1) i
    else widestDimAux rest (i + 1) bestW best

/-- Index of the widest dimension of a bound. -/
def widestDim : Box → ℕ
  | [] => 0
  | iv :: rest => widestDimAux rest 1 (iv.2 - iv.1) 0

/-- Midpoint of the bound in dimension `dim`. -/
def midVal (b : Box) (dim : ℕ) : ℚ :=
  ((b.getD dim (0, 0)).1 + (b.getD dim (0, 0)).2) / 2

/-- Decision of the midpoint split: does index `i` fall on the low side
of the widest dimension's midpoint? -/
def lowSide (points : List Point) (is : List ℕ) (i : ℕ) : Bool :=
  decide (coord (pt points i) (widestDim (boundOf (is.map (pt points)))) <
    midVal (boundOf (is.map (pt points)))
      (widestDim (boundOf (is.map (pt points)))))

/-- Low-side half of the midpoint split. -/
def leftIdxs (points : List Point) (is : List ℕ) : List ℕ :=
  is.filter (lowSide points is)

/-- High-side half of the midpoint split. -/
def rightIdxs (points : List Point) (is : List ℕ) : List ℕ :=
  is.filter fun i => ! lowSide points is i

/-- Midpoint bulk builder, modelled from the spec: recursively split the
index range at the midpoint of the widest bound dimension; stop at leaf
size or when a split makes no progress. The fuel argument (the length of
the index list suffices) makes termination structural. -/
def kdBuild (points : List Point) (leafSize : ℕ) : ℕ → List ℕ → KdTree
  | 0, is => KdTree.leaf (boundOf (is.map (pt points))) is
  | fuel + 1, is =>
    if is.length ≤ max 1 leafSize then
      KdTree.leaf (boundOf (is.map (pt points))) is
    else if leftIdxs points is = [] ∨ rightIdxs points is = [] then
      KdTree.leaf (boundOf (is.map (pt points))) is
    else
      KdTree.node (boundOf (is.map (pt points)))
        (kdBuild points leafSize fuel (leftIdxs points is))
        (kdBuild points leafSize fuel (rightIdxs points is))

/-- The builder permutes, never loses or duplicates, the index list. -/
theorem kdBuild_perm (points : List Point) (leafSize : ℕ) :
    ∀ (fuel : ℕ) (is : List ℕ),
      (kdBuild points leafSize fuel is).idxList.Perm is := by
  intro fuel
  induction fuel with
  | zero => intro is; exact List.Perm.refl is
  | succ fuel ih =>
    intro is
    rw [kdBuild]
    by_cases h1 : is.length ≤ max 1 leafSize
    · rw [if_pos h1]; exact List.Perm.refl is
    · rw [if_neg h1]
      by_cases h2 : leftIdxs points is = [] ∨ rightIdxs points is = []
      · rw [if_pos h2]; exact List.Perm.refl is
      · rw [if_neg h2]
        simp only [KdTree.idxList]
        exact ((ih _).append (ih _)).trans
          (List.filter_append_perm (lowSide points is) is)

/-- Tree validity, established by the builder and consumed by the
pruning-soundness arguments: the bound of every node contains every data
point below that node, all points below have dimension d, and a node
with points below it has one interval per dimension. -/
def ValidT (points : List Point) (d : ℕ) : KdTree → Prop
  | KdTree.leaf b is =>
    (is ≠ [] → b.length = d) ∧
    ∀ i ∈ is, containsB b (pt points i) ∧ (pt points i).length = d
  | KdTree.node b l r =>
    ((l.idxList ++ r.idxList) ≠ [] → b.length = d) ∧
    (∀ i ∈ l.idxList ++ r.idxList,
      containsB b (pt points i) ∧ (pt points i).length = d) ∧
    ValidT points d l ∧ ValidT points d r

theorem validT_top {points : List Point} {d : ℕ} :
    ∀ {t : KdTree}, ValidT points d t →
      (t.idxList ≠ [] → t.bnd.length = d) ∧
      ∀ i ∈ t.idxList, containsB t.bnd (pt points i) ∧
        (pt points i).length = d := by
  intro t h
  cases t with
  | leaf b is => exact h
  | node b l r => exact ⟨h.1, h.2.1⟩

theorem leafValid (points : List Point) (d : ℕ) (is : List ℕ)
    (hall : ∀ i ∈ is, (pt points i).length = d) :
    ValidT points d (KdTree.leaf (boundOf (is.map (pt points))) is) := by
  have hmap : ∀ p ∈ is.map (pt points), p.length = d := by
    intro p hp
    rcases List.mem_map.mp hp with ⟨i, hi, rfl⟩
    exact hall i hi
  constructor
  · intro hne
    exact boundOf_length (fun hm => hne (List.map_eq_nil_iff.mp hm)) hmap
  · intro i hi
    exact ⟨boundOf_contains hmap _ (List.mem_map_of_mem _ hi), hall i hi⟩

/-- The builder delivers a valid tree on any uniform-dimension dataset. -/
theorem kdBuild_valid (points : List Point) (d leafSize : ℕ) :
    ∀ (fuel : ℕ) (is : List ℕ), (∀ i ∈ is, (pt points i).length = d) →
      ValidT points d (kdBuild points leafSize fuel is) := by
  intro fuel
  induction fuel with
  | zero => intro is hall; exact leafValid points d is hall
  | succ fuel ih =>
    intro is hall
    rw [kdBuild]
    by_cases h1 : is.length ≤ max 1 leafSize
    · rw [if_pos h1]; exact leafValid points d is hall
    · rw [if_neg h1]
      by_cases h2 : leftIdxs points is = [] ∨ rightIdxs points is = []
      · rw [if_pos h2]; exact leafValid points d is hall
      · rw [if_neg h2]
        have hsubl : ∀ i ∈ leftIdxs points is, i ∈ is := fun i hi =>
          List.mem_of_mem_filter hi
        have hsubr : ∀ i ∈ rightIdxs points is, i ∈ is := fun i hi =>
          List.mem_of_mem_filter hi
        have hne : is ≠ [] := by
          intro h; rw [h] at h1; simp at h1
        have hmap : ∀ p ∈ is.map (pt points), p.length = d := by
          intro p hp
          rcases List.mem_map.mp hp with ⟨i, hi, rfl⟩
          exact hall i hi
        refine ⟨?_, ?_, ih _ (fun i hi => hall i (hsubl i hi)),
          ih _ (fun i hi => hall i (hsubr i hi))⟩
        · intro _
          exact boundOf_length (fun hm => hne (List.map_eq_nil_iff.mp hm)) hmap
        · intro i hi
          have hi2 : i ∈ is := by
            rcases List.mem_append.mp hi with h | h
            · exact hsubl i ((kdBuild_perm points leafSize fuel _).mem_iff.mp h)
            · exact hsubr i ((kdBuild_perm points leafSize fuel _).mem_iff.mp h)
          exact ⟨boundOf_contains hmap _ (List.mem_map_of_mem _ hi2), hall i hi2⟩

/-! ## The three ComputeNeighbors modes (modelled from the spec:
`NeighborSearch::ComputeNeighbors` is not among the sources, only its
test `allknn_test.cc`; naive, single-tree and dual-tree modes follow
spec section 4.4) -/

/-- Candidate (squared distance, index) pairs a query point accumulates
from a list of reference indices; a point never counts as its own
neighbour. -/
def pairsFor (points : List Point) (qi : ℕ) (ris : List ℕ) : List DI :=
  (ris.filter fun j => j != qi).map fun j =>
    (sqDist (pt points qi) (pt points j), j)

/-- Naive mode for one query point: both trees are single all-points
leaves, so every reference point reaches the base case in index order. -/
def naiveOne (points : List Point) (k qi : ℕ) : List DI :=
  List.foldl (insertTopK k) [] (pairsFor points qi (List.range points.length))

/-- Naive mode: the whole result table. -/
def naiveAll (points : List Point) (k : ℕ) : List (List DI) :=
  (List.range points.length).map (naiveOne points k)

/-- Single-tree prune test: the query point's list is full and the
best-case distance to the reference node's bound exceeds its current
k-th best distance. -/
def pruneSingle (k : ℕ) (qp : Point) (rb : Box) (s : List DI) : Bool :=
  (s.length == k) && decide (worstDist s < minDistBB (pointBound qp) rb)

/-- Single-tree mode: recursion over the reference tree for one query
point, pruning reference nodes that cannot improve the list. -/
def singleVisit (points : List Point) (k qi : ℕ) : KdTree → List DI → List DI
  | KdTree.leaf rb ris, s =>
    if pruneSingle k (pt points qi) rb s then s
    else List.foldl (insertTopK k) s (pairsFor points qi ris)
  | KdTree.node rb rl rr, s =>
    if pruneSingle k (pt points qi) rb s then s
    else singleVisit points k qi rr (singleVisit points k qi rl s)

/-- Single-tree mode: the whole result table. -/
def singleAll (points : List Point) (k leafSize : ℕ) : List (List DI) :=
  (List.range points.length).map fun qi =>
    singleVisit points k qi
      (kdBuild points leafSize points.length (List.range points.length)) []

/-- The mutable per-query result table of a traversal in progress (the
`QResult` cache array): one top-k list per query index. -/
abbrev Table : Type := List (List DI)

/-- Read one query's list (out-of-range reads give the empty list). -/
def tGet : Table → ℕ → List DI
  | [], _ => []
  | s :: _, 0 => s
  | _ :: t, j + 1 => tGet t j

/-- Write one query's list (out-of-range writes are dropped). -/
def tSet : Table → ℕ → List DI → Table
  | [], _, _ => []
  | _ :: t, 0, v => v :: t
  | s :: t, j + 1, v => s :: tSet t j v

/-- Dual-tree prune test at a (query node, reference node) pair: the
pair's best-case distance cannot improve the list of any query point
below the query node (each list is full and its current k-th best is
below the bound — the query-side monotone upper envelope of the spec). -/
def pruneDual (k : ℕ) (qis : List ℕ) (qb rb : Box) (t : Table) : Bool :=
  qis.all fun qi =>
    ((tGet t qi).length == k) && decide (worstDist (tGet t qi) < minDistBB qb rb)

/-- Dual-tree recursion once the query side is down to a leaf: descend
the reference tree, pruning pairs, and run the exhaustive leaf-leaf base
case at the bottom. -/
def dualLeaf (points : List Point) (k : ℕ) (qb : Box) (qis : List ℕ) :
    KdTree → Table → Table
  | KdTree.leaf rb ris, t =>
    if pruneDual k qis qb rb t then t
    else qis.foldl (fun t2 qi =>
      tSet t2 qi (List.foldl (insertTopK k) (tGet t2 qi) (pairsFor points qi ris))) t
  | KdTree.node rb rl rr, t =>
    if pruneDual k qis qb rb t then t
    else dualLeaf points k qb qis rr (dualLeaf points k qb qis rl t)

/-- Dual-tree mode: recursion over (query node, reference node) pairs.
Every pair is prune-tested on entry; an internal query node is expanded
into its children against the same reference node. -/
def dualVisit (points : List Point) (k : ℕ) : KdTree → KdTree → Table → Table
  | KdTree.leaf qb qis, r, t => dualLeaf points k qb qis r t
  | KdTree.node qb ql qr, r, t =>
    if pruneDual k (ql.idxList ++ qr.idxList) qb r.bnd t then t
    else dualVisit points k qr r (dualVisit points k ql r t)

/-- Dual-tree mode: the whole result table. -/
def dualAll (points : List Point) (k leafSize : ℕ) : List (List DI) :=
  (List.range points.length).map
    (tGet (dualVisit points k
      (kdBuild points leafSize points.length (List.range points.length))
      (kdBuild points leafSize points.length (List.range points.length))
      (List.replicate points.length [])))

/-! ## Mode equivalence: single-tree refines naive -/

theorem pt_length {points : List Point} {d : ℕ}
    (hdim : ∀ p ∈ points, p.length = d) {i : ℕ} (hi : i < points.length) :
    (pt points i).length = d := by
  unfold pt
  rw [List.getD_eq_getElem?_getD, List.getElem?_eq_getElem hi]
  exact hdim _ (List.getElem_mem hi)

theorem pairsFor_append (points : List Point) (qi : ℕ) (l1 l2 : List ℕ) :
    pairsFor points qi (l1 ++ l2) =
      pairsFor points qi l1 ++ pairsFor points qi l2 := by
  simp [pairsFor, List.filter_append]

theorem pairsFor_perm (points : List Point) (qi : ℕ) {l1 l2 : List ℕ}
    (h : l1.Perm l2) :
    (pairsFor points qi l1).Perm (pairsFor points qi l2) :=
  (h.filter _).map _

/-- Soundness core: every candidate pair produced from reference
indices below a node is at least the pair's pruning bound away. -/
theorem pairs_far (points : List Point) (d : ℕ) {qb rb : Box} {qi : ℕ}
    {ris : List ℕ}
    (hq : containsB qb (pt points qi)) (hqd : (pt points qi).length = d)
    (hqb : qb.length = d)
    (hcont : ∀ j2 ∈ ris, containsB rb (pt points j2) ∧ (pt points j2).length = d)
    (hrb : ris ≠ [] → rb.length = d) :
    ∀ x ∈ pairsFor points qi ris, minDistBB qb rb ≤ x.1 := by
  intro x hx
  rcases List.mem_map.mp hx with ⟨j2, hj2, rfl⟩
  have hj2m : j2 ∈ ris := List.mem_of_mem_filter hj2
  have hc := hcont j2 hj2m
  exact minDistBB_le_sqDist qb rb _ _ (hqb.trans hqd.symm)
    ((hrb (List.ne_nil_of_mem hj2m)).trans hc.2.symm) (hqd.trans hc.2.symm)
    hq hc.1

/-- Appending only far-away candidates does not change the top-k. -/
theorem topK_append_far {k : ℕ} {m l : List DI}
    (hlen : (topK k m).length = k)
    (hfar : ∀ x ∈ l, worstDist (topK k m) < x.1) :
    topK k (m ++ l) = topK k m := by
  rw [← foldl_insertTopK]
  exact foldl_insertTopK_of_far hlen hfar

theorem pruneSingle_eq_true {k : ℕ} {qp : Point} {rb : Box} {s : List DI} :
    pruneSingle k qp rb s = true ↔
      s.length = k ∧ worstDist s < minDistBB (pointBound qp) rb := by
  simp [pruneSingle]

theorem pruneDual_eq_true {k : ℕ} {qis : List ℕ} {qb rb : Box} {t : Table} :
    pruneDual k qis qb rb t = true ↔
      ∀ qi ∈ qis, (tGet t qi).length = k ∧
        worstDist (tGet t qi) < minDistBB qb rb := by
  simp [pruneDual]

/-- Single-tree traversal over a valid reference tree computes exactly
the canonical top-k over all candidates below that tree: pruning never
loses a possible k-nearest neighbour. -/
theorem singleVisit_spec (points : List Point) (d k qi : ℕ)
    (hqd : (pt points qi).length = d) :
    ∀ (r : KdTree), ValidT points d r → ∀ (m : List DI),
      singleVisit points k qi r (topK k m) =
        topK k (m ++ pairsFor points qi r.idxList) := by
  intro r
  induction r with
  | leaf rb ris =>
    intro hv m
    rw [singleVisit]
    by_cases hp : pruneSingle k (pt points qi) rb (topK k m) = true
    · rw [if_pos hp]
      rcases pruneSingle_eq_true.mp hp with ⟨hlen, hw⟩
      refine (topK_append_far hlen fun x hx => hw.trans_le ?_).symm
      exact pairs_far points d (containsB_pointBound _) hqd
        ((pointBound_length _).trans hqd) (fun j2 hj2 => hv.2 j2 hj2) hv.1 x hx
    · rw [if_neg hp]
      exact foldl_insertTopK k _ m
  | node rb rl rr ihl ihr =>
    intro hv m
    rw [singleVisit]
    by_cases hp : pruneSingle k (pt points qi) rb (topK k m) = true
    · rw [if_pos hp]
      rcases pruneSingle_eq_true.mp hp with ⟨hlen, hw⟩
      refine (topK_append_far hlen fun x hx => hw.trans_le ?_).symm
      exact pairs_far points d (containsB_pointBound _) hqd
        ((pointBound_length _).trans hqd) (fun j2 hj2 => hv.2.1 j2 hj2) hv.1 x hx
    · rw [if_neg hp, ihl hv.2.2.1 m,
        ihr hv.2.2.2 (m ++ pairsFor points qi rl.idxList)]
      simp [KdTree.idxList, pairsFor_append, List.append_assoc]

/-! ## Mode equivalence: dual-tree refines naive -/

theorem length_tSet : ∀ (t : Table) (i : ℕ) (v : List DI),
    (tSet t i v).length = t.length := by
  intro t
  induction t with
  | nil => intro i v; rfl
  | cons s t ih =>
    intro i v
    cases i with
    | zero => rfl
    | succ j => simp [tSet, ih]

theorem tGet_tSet_self : ∀ {t : Table} {i : ℕ}, i < t.length →
    ∀ (v : List DI), tGet (tSet t i v) i = v := by
  intro t
  induction t with
  | nil => intro i h; simp at h
  | cons s t ih =>
    intro i h v
    cases i with
    | zero => rfl
    | succ j => exact ih (by simpa using h) v

theorem tGet_tSet_ne : ∀ (t : Table) {i j : ℕ}, j ≠ i →
    ∀ (v : List DI), tGet (tSet t i v) j = tGet t j := by
  intro t
  induction t with
  | nil => intro i j _ v; rfl
  | cons s t ih =>
    intro i j hne v
    cases i with
    | zero =>
      cases j with
      | zero => exact absurd rfl hne
      | succ j2 => rfl
    | succ i2 =>
      cases j with
      | zero => rfl
      | succ j2 => exact ih (fun h => hne (congrArg Nat.succ h)) v

theorem tGet_replicate (n j : ℕ) : tGet (List.replicate n []) j = [] := by
  induction n generalizing j with
  | zero => rfl
  | succ n ih =>
    cases j with
    | zero => rfl
    | succ j2 => exact ih j2

theorem baseFold_length (points : List Point) (k : ℕ) (ris : List ℕ) :
    ∀ (qis : List ℕ) (t : Table),
      (qis.foldl (fun t2 qi =>
        tSet t2 qi (List.foldl (insertTopK k) (tGet t2 qi)
          (pairsFor points qi ris))) t).length = t.length := by
  intro qis
  induction qis with
  | nil => intro t; rfl
  | cons qi qis ih =>
    intro t
    rw [List.foldl_cons, ih, length_tSet]

/-- The leaf-leaf base case updates exactly the leaf's query points,
folding every reference candidate into each. -/
theorem baseFold_spec (points : List Point) (k : ℕ) (ris : List ℕ) :
    ∀ (qis : List ℕ) (t : Table), qis.Nodup →
      (∀ qi ∈ qis, qi < t.length) →
      ∀ j, tGet (qis.foldl (fun t2 qi =>
          tSet t2 qi (List.foldl (insertTopK k) (tGet t2 qi)
            (pairsFor points qi ris))) t) j =
        if j ∈ qis then
          List.foldl (insertTopK k) (tGet t j) (pairsFor points j ris)
        else tGet t j := by
  intro qis
  induction qis with
  | nil => intro t _ _ j; simp
  | cons qi qis ih =>
    intro t hnd hlt j
    rw [List.foldl_cons]
    have hqi : qi < t.length := hlt qi (List.mem_cons_self qi qis)
    rw [ih (tSet t qi (List.foldl (insertTopK k) (tGet t qi)
        (pairsFor points qi ris))) hnd.of_cons
        (fun x hx => (length_tSet t qi _).symm ▸ hlt x (List.mem_cons_of_mem qi hx)) j]
    by_cases hj : j ∈ qis
    · rw [if_pos hj, if_pos (List.mem_cons_of_mem qi hj)]
      have hne : j ≠ qi := fun h => (List.nodup_cons.mp hnd).1 (h ▸ hj)
      rw [tGet_tSet_ne t hne]
    · by_cases hjq : j = qi
      · subst hjq
        rw [if_neg hj, if_pos (List.mem_cons_self j qis), tGet_tSet_self hqi]
      · rw [if_neg hj, if_neg (by simp [hjq, hj]), tGet_tSet_ne t hjq]

theorem dualLeaf_length (points : List Point) (k : ℕ) (qb : Box)
    (qis : List ℕ) :
    ∀ (r : KdTree) (t : Table),
      (dualLeaf points k qb qis r t).length = t.length := by
  intro r
  induction r with
  | leaf rb ris =>
    intro t
    rw [dualLeaf]
    by_cases hp : pruneDual k qis qb rb t = true
    · rw [if_pos hp]
    · rw [if_neg hp]
      exact baseFold_length points k ris qis t
  | node rb rl rr ihl ihr =>
    intro t
    rw [dualLeaf]
    by_cases hp : pruneDual k qis qb rb t = true
    · rw [if_pos hp]
    · rw [if_neg hp, ihr, ihl]

theorem dualVisit_length (points : List Point) (k : ℕ) :
    ∀ (q r : KdTree) (t : Table),
      (dualVisit points k q r t).length = t.length := by
  intro q
  induction q with
  | leaf qb qis =>
    intro r t
    exact dualLeaf_length points k qb qis r t
  | node qb ql qr ihl ihr =>
    intro r t
    rw [dualVisit]
    by_cases hp : pruneDual k (ql.idxList ++ qr.idxList) qb r.bnd t = true
    · rw [if_pos hp]
    · rw [if_neg hp, ihr, ihl]

/-- Dual-tree recursion with a leaf query node computes, for each of the
leaf's query points, the canonical top-k over all candidates below the
reference node; other table entries are untouched. -/
theorem dualLeaf_spec (points : List Point) (d k : ℕ) (qb : Box)
    (qis : List ℕ) (hnd : qis.Nodup)
    (hqis : ∀ qi ∈ qis, containsB qb (pt points qi) ∧ (pt points qi).length = d)
    (hqb : qis ≠ [] → qb.length = d) :
    ∀ (r : KdTree), ValidT points d r →
      ∀ (t : Table) (m : ℕ → List DI),
        (∀ qi ∈ qis, qi < t.length) →
        (∀ j, tGet t j = topK k (m j)) →
        ∀ j, tGet (dualLeaf points k qb qis r t) j =
          topK k (m j ++ if j ∈ qis then pairsFor points j r.idxList else []) := by
  intro r
  induction r with
  | leaf rb ris =>
    intro hv t m hlt ht j
    rw [dualLeaf]
    simp only [KdTree.idxList]
    by_cases hp : pruneDual k qis qb rb t = true
    · rw [if_pos hp]
      by_cases hj : j ∈ qis
      · rw [if_pos hj]
        rcases (pruneDual_eq_true.mp hp) j hj with ⟨hlen, hw⟩
        rw [ht j] at hlen hw
        have hfar : ∀ x ∈ pairsFor points j ris,
            worstDist (topK k (m j)) < x.1 := by
          intro x hx
          exact hw.trans_le (pairs_far points d (hqis j hj).1 (hqis j hj).2
            (hqb (List.ne_nil_of_mem hj)) (fun j2 hj2 => hv.2 j2 hj2) hv.1 x hx)
        rw [topK_append_far hlen hfar]
        exact ht j
      · rw [if_neg hj]
        simpa using ht j
    · rw [if_neg hp, baseFold_spec points k ris qis t hnd hlt j]
      by_cases hj : j ∈ qis
      · rw [if_pos hj, if_pos hj, ht j, foldl_insertTopK]
      · rw [if_neg hj, if_neg hj]
        simpa using ht j
  | node rb rl rr ihl ihr =>
    intro hv t m hlt ht j
    rw [dualLeaf]
    by_cases hp : pruneDual k qis qb rb t = true
    · rw [if_pos hp]
      by_cases hj : j ∈ qis
      · rw [if_pos hj]
        rcases (pruneDual_eq_true.mp hp) j hj with ⟨hlen, hw⟩
        rw [ht j] at hlen hw
        have hfar : ∀ x ∈ pairsFor points j (KdTree.node rb rl rr).idxList,
            worstDist (topK k (m j)) < x.1 := by
          intro x hx
          exact hw.trans_le (pairs_far points d (hqis j hj).1 (hqis j hj).2
            (hqb (List.ne_nil_of_mem hj)) (fun j2 hj2 => hv.2.1 j2 hj2) hv.1 x hx)
        rw [topK_append_far hlen hfar]
        exact ht j
      · rw [if_neg hj]
        simpa using ht j
    · rw [if_neg hp]
      have h1 := ihl hv.2.2.1 t m hlt ht
      have hlen1 : (dualLeaf points k qb qis rl t).length = t.length :=
        dualLeaf_length points k qb qis rl t
      have h2 := ihr hv.2.2.2 (dualLeaf points k qb qis rl t)
        (fun j2 => m j2 ++ if j2 ∈ qis then pairsFor points j2 rl.idxList else [])
        (fun qi hqi => hlen1.symm ▸ hlt qi hqi) h1 j
      rw [h2]
      by_cases hj : j ∈ qis
      · simp only [if_pos hj, KdTree.idxList, pairsFor_append, List.append_assoc]
      · simp only [if_neg hj, List.append_nil]

/-- Dual-tree traversal from any (query node, reference node) pair
computes, for each query point below the query node, the canonical top-k
over all candidates below the reference node. -/
theorem dualVisit_spec (points : List Point) (d k : ℕ) :
    ∀ (q : KdTree), ValidT points d q → q.idxList.Nodup →
      ∀ (r : KdTree), ValidT points d r →
        ∀ (t : Table) (m : ℕ → List DI),
          (∀ qi ∈ q.idxList, qi < t.length) →
          (∀ j, tGet t j = topK k (m j)) →
          ∀ j, tGet (dualVisit points k q r t) j =
            topK k (m j ++ if j ∈ q.idxList then pairsFor points j r.idxList
              else []) := by
  intro q
  induction q with
  | leaf qb qis =>
    intro hvq hnd r hvr t m hlt ht j
    exact dualLeaf_spec points d k qb qis hnd (fun qi hqi => hvq.2 qi hqi)
      hvq.1 r hvr t m hlt ht j
  | node qb ql qr ihl ihr =>
    intro hvq hnd r hvr t m hlt ht j
    rw [dualVisit]
    by_cases hp : pruneDual k (ql.idxList ++ qr.idxList) qb r.bnd t = true
    · rw [if_pos hp]
      by_cases hj : j ∈ (KdTree.node qb ql qr).idxList
      · have hj2 : j ∈ ql.idxList ++ qr.idxList := hj
        rcases (pruneDual_eq_true.mp hp) j hj2 with ⟨hlen, hw⟩
        rw [ht j] at hlen hw
        have hrtop := validT_top hvr
        have hfar : ∀ x ∈ pairsFor points j r.idxList,
            worstDist (topK k (m j)) < x.1 := by
          intro x hx
          exact hw.trans_le (pairs_far points d (hvq.2.1 j hj2).1
            (hvq.2.1 j hj2).2 (hvq.1 (List.ne_nil_of_mem hj2))
            (fun j2 hj2b => hrtop.2 j2 hj2b) hrtop.1 x hx)
        rw [if_pos hj, topK_append_far hlen hfar]
        exact ht j
      · rw [if_neg hj]
        simpa using ht j
    · rw [if_neg hp]
      have hndl : ql.idxList.Nodup := hnd.of_append_left
      have hndr : qr.idxList.Nodup := hnd.of_append_right
      have hdisj : ql.idxList.Disjoint qr.idxList :=
        (List.nodup_append.mp hnd).2.2
      have h1 := ihl hvq.2.2.1 hndl r hvr t m
        (fun qi hqi => hlt qi (List.mem_append_left _ hqi)) ht
      have hlen1 : (dualVisit points k ql r t).length = t.length :=
        dualVisit_length points k ql r t
      have h2 := ihr hvq.2.2.2 hndr r hvr (dualVisit points k ql r t)
        (fun j2 => m j2 ++ if j2 ∈ ql.idxList then pairsFor points j2 r.idxList
          else [])
        (fun qi hqi => hlen1.symm ▸ hlt qi (List.mem_append_right _ hqi)) h1 j
      rw [h2]
      by_cases hjl : j ∈ ql.idxList
      · have hjr : j ∉ qr.idxList := hdisj hjl
        have hjn : j ∈ (KdTree.node qb ql qr).idxList :=
          List.mem_append_left _ hjl
        simp only [if_pos hjl, if_neg hjr, if_pos hjn, List.append_nil]
      · by_cases hjr : j ∈ qr.idxList
        · have hjn : j ∈ (KdTree.node qb ql qr).idxList :=
            List.mem_append_right _ hjr
          simp only [if_neg hjl, if_pos hjr, if_pos hjn, List.append_nil]
        · have hjn : j ∉ (KdTree.node qb ql qr).idxList := by
            simp only [KdTree.idxList, List.mem_append]
            exact fun h => h.elim hjl hjr
          simp only [if_neg hjl, if_neg hjr, if_neg hjn, List.append_nil]

theorem naiveOne_eq_topK (points : List Point) (k qi : ℕ) :
    naiveOne points k qi =
      topK k (pairsFor points qi (List.range points.length)) := by
  have h := foldl_insertTopK k (pairsFor points qi (List.range points.length)) []
  rw [topK_nil] at h
  simpa [naiveOne] using h

/-- The three modes agree exactly: single-tree and dual-tree searches
over the tree built by the midpoint builder return the same result table
as the naive all-pairs scan, for every uniform-dimension point set,
every k and every leaf size. -/
theorem modesAgree (points : List Point) (k leafSize d : ℕ)
    (hdim : ∀ p ∈ points, p.length = d) :
    singleAll points k leafSize = naiveAll points k ∧
    dualAll points k leafSize = naiveAll points k := by
  have hall : ∀ i ∈ List.range points.length, (pt points i).length = d :=
    fun i hi => pt_length hdim (List.mem_range.mp hi)
  have hv : ValidT points d
      (kdBuild points leafSize points.length (List.range points.length)) :=
    kdBuild_valid points d leafSize points.length (List.range points.length) hall
  have hperm := kdBuild_perm points leafSize points.length
    (List.range points.length)
  have hnd : (kdBuild points leafSize points.length
      (List.range points.length)).idxList.Nodup :=
    hperm.nodup_iff.mpr (List.nodup_range points.length)
  constructor
  · unfold singleAll naiveAll
    refine List.map_congr_left ?_
    intro qi hqi
    have hqd := pt_length hdim (List.mem_range.mp hqi)
    have h := singleVisit_spec points d k qi hqd _ hv []
    rw [topK_nil] at h
    rw [h, List.nil_append, naiveOne_eq_topK]
    exact topK_perm k (pairsFor_perm points qi hperm)
  · unfold dualAll naiveAll
    refine List.map_congr_left ?_
    intro qi hqi
    have hlt : ∀ x ∈ (kdBuild points leafSize points.length
        (List.range points.length)).idxList,
        x < (List.replicate points.length ([] : List DI)).length := by
      intro x hx
      rw [List.length_replicate]
      exact List.mem_range.mp (hperm.mem_iff.mp hx)
    have ht : ∀ j, tGet (List.replicate points.length []) j =
        topK k ((fun _ => ([] : List DI)) j) := by
      intro j
      rw [tGet_replicate, topK_nil]
    have h := dualVisit_spec points d k _ hv hnd _ hv _ (fun _ => []) hlt ht qi
    have hqmem : qi ∈ (kdBuild points leafSize points.length
        (List.range points.length)).idxList := hperm.mem_iff.mpr hqi
    rw [if_pos hqmem] at h
    rw [h, List.nil_append, naiveOne_eq_topK]
    exact topK_perm k (pairsFor_perm points qi hperm)

/-- Claim C1 (mode equivalence): for every point set (of uniform
dimension d) and every k, ComputeNeighbors run in naive mode, in
single-tree mode, and in dual-tree mode returns identical
neighbour-index tables and identical distance tables. Over the exact
rational arithmetic of this embedding the tables are equal outright,
which in particular means the distances agree within the 1e-5 relative
floating-point tolerance the test uses. -/
theorem c1_mode_equivalence (points : List Point) (k leafSize d : ℕ)
    (hdim : ∀ p ∈ points, p.length = d) :
    singleAll points k leafSize = naiveAll points k ∧
    dualAll points k leafSize = naiveAll points k :=
  modesAgree points k leafSize d hdim

/-- Witness for C1: the dimension hypothesis holds and the theorem
applies at a concrete 1-dimensional 3-point dataset with k = 2. -/
theorem c1_mode_equivalence_witness :
    (∀ p ∈ [[(0 : ℚ)], [1], [5]], p.length = 1) ∧
    (singleAll [[(0 : ℚ)], [1], [5]] 2 1 = naiveAll [[(0 : ℚ)], [1], [5]] 2 ∧
      dualAll [[(0 : ℚ)], [1], [5]] 2 1 = naiveAll [[(0 : ℚ)], [1], [5]] 2) :=
  ⟨by decide, c1_mode_equivalence [[(0 : ℚ)], [1], [5]] 2 1 1 (by decide)⟩

/-- The 11-point one-dimensional dataset of `exhaustive_synthetic_test`:
0.05, 0.35, 0.15, 1.25, 5.05, -0.20, -2.00, -1.30, 0.45, 0.90, 1.00. -/
def data11 : List Point :=
  [[1/20], [7/20], [3/20], [5/4], [101/20], [-1/5], [-2], [-13/10],
   [9/20], [9/10], [1]]

set_option maxRecDepth 10000 in
unseal Rat.add Rat.mul Rat.sub Rat.inv in
/-- Claim C2 (exhaustive synthetic test): on the 11-point dataset with
k = 10, query point 0's neighbours in ascending-distance order are
indices [2,5,1,8,9,10,3,7,6,4] with squared distances
[0.01, 0.0625, 0.09, 0.16, 0.7225, 0.9025, 1.44, 1.8225, 4.2025, 25.0]
(written as exact rationals below), and single-tree and dual-tree modes
return the very same table as naive mode — exact equality, hence within
the 1e-5 relative tolerance of the test. -/
theorem c2_exhaustive_synthetic :
    (((naiveAll data11 10).headD []).map Prod.snd =
        [2, 5, 1, 8, 9, 10, 3, 7, 6, 4] ∧
      ((naiveAll data11 10).headD []).map Prod.fst =
        [1/100, 1/16, 9/100, 4/25, 289/400, 361/400, 36/25, 729/400,
         1681/400, 25]) ∧
    singleAll data11 10 1 = naiveAll data11 10 ∧
    dualAll data11 10 1 = naiveAll data11 10 := by
  refine ⟨⟨?_, ?_⟩, ?_, ?_⟩ <;> decide

/-! ## RectangleTree (rectangle_tree_impl.hpp)

The node mirrors the source's fields: `begin` (always 0 in this source),
the owned points of the node's `dataset` (whose number is the source's
`count`), and the owned children (`numChildren` is their number). The
bound is an `Option`: the constructor creates an empty `HRectBound`,
modelled as `none`. `HRectBound`'s own operations (`|=`, `Diameter`) and
the `DescentType`/`SplitType` policies are not under src/ and are
modelled from the spec or taken as parameters. -/

inductive RTree where
  | mk (begin : ℕ) (bound : Option Box) (pts : List Point)
      (children : List RTree)

def RTree.begin : RTree → ℕ
  | RTree.mk b _ _ _ => b

def RTree.bound : RTree → Option Box
  | RTree.mk _ b _ _ => b

def RTree.pts : RTree → List Point
  | RTree.mk _ _ ps _ => ps

def RTree.children : RTree → List RTree
  | RTree.mk _ _ _ cs => cs

/-- The source's `count` field: the number of points stored in the
node. -/
def RTree.count (t : RTree) : ℕ := t.pts.length

/-- `bound |= point`, modelled from the spec: an empty bound becomes the
point's degenerate bound, otherwise every dimension's interval grows to
contain the point. -/
def unionPointO : Option Box → Point → Option Box
  | none, p => some (pointBound p)
  | some b, p => some (unionPoint b p)

/-- Membership in a possibly-empty bound (an empty bound contains
nothing). -/
def containsO : Option Box → Point → Prop
  | none, _ => False
  | some b, p => containsB b p

mutual

/-- All points stored in a node's subtree. -/
def allPts : RTree → List Point
  | RTree.mk _ _ ps cs => ps ++ allPtsL cs

def allPtsL : List RTree → List Point
  | [] => []
  | c :: cs => allPts c ++ allPtsL cs

end

mutual

/-- The bound invariant of the spec: every node's bound contains every
point stored in that node's subtree. -/
def Inv : RTree → Prop
  | RTree.mk _ b ps cs => (∀ p ∈ ps ++ allPtsL cs, containsO b p) ∧ InvL cs

def InvL : List RTree → Prop
  | [] => True
  | c :: cs => Inv c ∧ InvL cs

end

/-- `RectangleTree::SplitNode`: assert the node is a leaf (a failed
assertion aborts the run, modelled as `none`); a non-full leaf is left
unchanged; a full leaf is handed to the split strategy
(`SplitType::SplitLeafNode`, a parameter: it is not under src/). -/
def splitNode (split : RTree → RTree) (maxLeafSize : ℕ) (t : RTree) :
    Option RTree :=
  if t.children.length ≠ 0 then none
  else if t.count < maxLeafSize then some t
  else some (split t)

/-- `SplitNode` at its call site inside `InsertPoint`, where the node is
a freshly extended leaf, so the leaf assertion always holds. -/
def splitNodeT (split : RTree → RTree) (maxLeafSize : ℕ) (t : RTree) :
    RTree :=
  if t.count < maxLeafSize then t else split t

/-- The argmin loop of `InsertPoint`: index of the child minimizing the
descent heuristic score, keeping the first minimum, exactly as the
source loop updates only on a strictly smaller score. -/
def bestIndexAux (eval : Option Box → Point → ℚ) (p : Point) :
    List RTree → ℕ → ℚ → ℕ → ℕ
  | [], _, _, best => best
  | c :: cs, i, minScore, best =>
    if eval c.bound p < minScore then
      bestIndexAux eval p cs (i + 1) (eval c.bound p) i
    else bestIndexAux eval p cs (i + 1) minScore best

def bestIndex (eval : Option Box → Point → ℚ) (p : Point) :
    List RTree → ℕ
  | [] => 0
  | c :: cs => bestIndexAux eval p cs 1 (eval c.bound p) 0

theorem bestIndexAux_lt (eval : Option Box → Point → ℚ) (p : Point) :
    ∀ (cs : List RTree) (i : ℕ) (ms : ℚ) (best : ℕ), best < i →
      bestIndexAux eval p cs i ms best < i + cs.length := by
  intro cs
  induction cs with
  | nil => intro i ms best h; simpa using h
  | cons c cs ih =>
    intro i ms best h
    rw [bestIndexAux]
    by_cases hc : eval c.bound p < ms
    · rw [if_pos hc]
      exact lt_of_lt_of_le (ih (i + 1) _ i (Nat.lt_succ_self i)) (by simp; omega)
    · rw [if_neg hc]
      exact lt_of_lt_of_le (ih (i + 1) ms best (h.trans (Nat.lt_succ_self i)))
        (by simp; omega)

theorem bestIndex_lt (eval : Option Box → Point → ℚ) (p : Point)
    {cs : List RTree} (h : cs ≠ []) : bestIndex eval p cs < cs.length := by
  cases cs with
  | nil => exact absurd rfl h
  | cons c cs =>
    rw [bestIndex]
    exact lt_of_lt_of_le (bestIndexAux_lt eval p cs 1 _ 0 Nat.one_pos)
      (by rw [List.length_cons]; omega)

/-- `RectangleTree::InsertPoint`: expand the bound with the point
unconditionally; at a leaf, append the point and call `SplitNode`;
otherwise descend into the child of minimal descent score. (The index
is reduced modulo the child count only so the in-range fact is evident;
`bestIndex_lt` shows the reduction changes nothing.) -/
def insertPoint (split : RTree → RTree) (eval : Option Box → Point → ℚ)
    (maxLeafSize : ℕ) (p : Point) : RTree → RTree
  | RTree.mk beg b ps cs =>
    if h : cs.length = 0 then
      splitNodeT split maxLeafSize
        (RTree.mk beg (unionPointO b p) (ps ++ [p]) [])
    else
      RTree.mk beg (unionPointO b p) ps
        (cs.set (bestIndex eval p cs)
          (insertPoint split eval maxLeafSize p
            (cs.get ⟨bestIndex eval p cs % cs.length,
              Nat.mod_lt _ (Nat.pos_of_ne_zero h)⟩)))
decreasing_by
  rename_i bnd2 ps2 cs2
  have h1 := List.sizeOf_lt_of_mem (List.get_mem cs2
    (bestIndex eval p cs2 % cs2.length) (Nat.mod_lt _ (Nat.pos_of_ne_zero h)))
  simp only [RTree.mk.sizeOf_spec]
  omega

/-- The `RectangleTree` data constructor: start from an empty root
(begin 0, empty bound, no points, no children) and insert every data
column in order. -/
def rectBuild (split : RTree → RTree) (eval : Option Box → Point → ℚ)
    (maxLeafSize : ℕ) (data : List Point) : RTree :=
  data.foldl (fun t p => insertPoint split eval maxLeafSize p t)
    (RTree.mk 0 none [] [])

/-- `RectangleTree::End`: with children present, begin + count; on a
leaf the source reads `children[numChildren - 1]` with `numChildren`
equal to 0 — an out-of-bounds vector access, modelled as `none`. -/
def nodeEnd (t : RTree) : Option ℕ :=
  if t.children.length ≠ 0 then some (t.begin + t.count) else none

/-- `RectangleTree::IsLeaf`: no children. -/
def IsLeafR (t : RTree) : Bool := t.children.length == 0

/-- `RectangleTree::FurthestPointDistance`: 0 for a non-leaf, half the
bound's diameter for a leaf (`HRectBound::Diameter` is not under src/,
so it is a parameter). -/
def FurthestPointDistance (diam : Option Box → ℚ) (t : RTree) : ℚ :=
  if !(IsLeafR t) then 0 else (1 / 2) * diam t.bound

/-! ## The bound invariant of InsertPoint (C3) -/

theorem containsB_unionPoint_self_any :
    ∀ (b : Box) (p : Point), containsB (unionPoint b p) p := by
  intro b
  induction b with
  | nil =>
    intro p pr h
    simp [unionPoint] at h
  | cons iv b ih =>
    intro p pr h
    cases p with
    | nil => simp [unionPoint] at h
    | cons x p =>
      simp only [unionPoint, List.zipWith_cons_cons, List.zip_cons_cons,
        List.mem_cons] at h
      rcases h with rfl | h
      · exact ⟨min_le_right _ _, le_max_right _ _⟩
      · exact ih p pr (by simpa [unionPoint] using h)

theorem containsO_unionPointO_self (b : Option Box) (p : Point) :
    containsO (unionPointO b p) p := by
  cases b with
  | none => exact containsB_pointBound p
  | some bx => exact containsB_unionPoint_self_any bx p

theorem containsO_unionPointO_mono {b : Option Box} {p q : Point}
    (h : containsO b q) : containsO (unionPointO b p) q := by
  cases b with
  | none => exact absurd h id
  | some bx => exact containsB_unionPoint_mono h

theorem allPts_mk (beg : ℕ) (b : Option Box) (ps : List Point)
    (cs : List RTree) :
    allPts (RTree.mk beg b ps cs) = ps ++ allPtsL cs := by
  rw [allPts]

theorem allPts_subset_allPtsL :
    ∀ {cs : List RTree} {c : RTree}, c ∈ cs →
      ∀ x ∈ allPts c, x ∈ allPtsL cs := by
  intro cs
  induction cs with
  | nil => intro c h; cases h
  | cons c2 cs ih =>
    intro c h x hx
    rw [allPtsL, List.mem_append]
    rcases List.mem_cons.mp h with rfl | h
    · exact Or.inl hx
    · exact Or.inr (ih h x hx)

theorem allPtsL_set :
    ∀ (cs : List RTree) (i : ℕ) (c' : RTree),
      ∀ x ∈ allPtsL (cs.set i c'), x ∈ allPtsL cs ∨ x ∈ allPts c' := by
  intro cs
  induction cs with
  | nil => intro i c' x hx; exact Or.inl hx
  | cons c2 cs ih =>
    intro i c' x hx
    cases i with
    | zero =>
      rw [List.set_cons_zero] at hx
      rw [allPtsL, List.mem_append] at hx
      rw [allPtsL, List.mem_append]
      rcases hx with hx | hx
      · exact Or.inr hx
      · exact Or.inl (Or.inr hx)
    | succ j =>
      rw [List.set_cons_succ] at hx
      rw [allPtsL, List.mem_append] at hx
      rw [allPtsL, List.mem_append]
      rcases hx with hx | hx
      · exact Or.inl (Or.inl hx)
      · rcases ih j c' x hx with hx2 | hx2
        · exact Or.inl (Or.inr hx2)
        · exact Or.inr hx2

theorem invL_mem : ∀ {cs : List RTree}, InvL cs → ∀ c ∈ cs, Inv c := by
  intro cs
  induction cs with
  | nil => intro _ c h; cases h
  | cons c2 cs ih =>
    intro hl c h
    rw [InvL] at hl
    rcases List.mem_cons.mp h with rfl | h
    · exact hl.1
    · exact ih hl.2 c h

theorem invL_set : ∀ {cs : List RTree} (i : ℕ) {c' : RTree},
    InvL cs → Inv c' → InvL (cs.set i c') := by
  intro cs
  induction cs with
  | nil => intro i c' hl _; exact hl
  | cons c2 cs ih =>
    intro i c' hl hc
    rw [InvL] at hl
    cases i with
    | zero =>
      rw [List.set_cons_zero, InvL]
      exact ⟨hc, hl.2⟩
    | succ j =>
      rw [List.set_cons_succ, InvL]
      exact ⟨hl.1, ih j hl.2 hc⟩

theorem splitNodeT_inv (split : RTree → RTree) (maxLeafSize : ℕ)
    (hsplit : ∀ u, Inv u → Inv (split u)) (u : RTree) (hu : Inv u) :
    Inv (splitNodeT split maxLeafSize u) := by
  unfold splitNodeT
  by_cases hc : u.count < maxLeafSize
  · rw [if_pos hc]; exact hu
  · rw [if_neg hc]; exact hsplit u hu

theorem splitNodeT_pts (split : RTree → RTree) (maxLeafSize : ℕ)
    (hspts : ∀ u, ∀ x ∈ allPts (split u), x ∈ allPts u) (u : RTree) :
    ∀ x ∈ allPts (splitNodeT split maxLeafSize u), x ∈ allPts u := by
  unfold splitNodeT
  by_cases hc : u.count < maxLeafSize
  · rw [if_pos hc]; exact fun x hx => hx
  · rw [if_neg hc]; exact hspts u

/-- One `InsertPoint` preserves the bound invariant, and adds no point
other than the inserted one. -/
theorem insertPoint_inv (split : RTree → RTree)
    (eval : Option Box → Point → ℚ) (maxLeafSize : ℕ)
    (hsplit : ∀ u, Inv u → Inv (split u))
    (hspts : ∀ u, ∀ x ∈ allPts (split u), x ∈ allPts u) (p : Point) :
    ∀ t : RTree,
      (Inv t → Inv (insertPoint split eval maxLeafSize p t)) ∧
      (∀ x ∈ allPts (insertPoint split eval maxLeafSize p t),
        x ∈ allPts t ∨ x = p) := by
  intro t
  induction t using insertPoint.induct split eval maxLeafSize p with
  | case1 beg b ps cs h =>
    have hcs : cs = [] := List.length_eq_zero.mp h
    subst hcs
    rw [insertPoint]
    constructor
    · intro ht
      rw [Inv] at ht
      apply splitNodeT_inv split maxLeafSize hsplit
      rw [Inv]
      constructor
      · intro x hx
        rw [allPtsL, List.append_nil, List.mem_append] at hx
        rcases hx with hx | hx
        · exact containsO_unionPointO_mono
            (ht.1 x (by rw [allPtsL, List.append_nil]; exact hx))
        · rw [List.mem_singleton] at hx
          subst hx
          exact containsO_unionPointO_self b x
      · rw [InvL]; exact trivial
    · intro x hx
      have hx2 := splitNodeT_pts split maxLeafSize hspts _ x hx
      rw [allPts_mk, allPtsL, List.append_nil, List.mem_append] at hx2
      rw [allPts_mk, allPtsL, List.append_nil]
      rcases hx2 with hx2 | hx2
      · exact Or.inl hx2
      · rw [List.mem_singleton] at hx2
        exact Or.inr hx2
  | case2 beg b ps cs h ih =>
    rw [insertPoint]
    simp only [dif_neg h]
    have hget : cs.get ⟨bestIndex eval p cs % cs.length,
        Nat.mod_lt _ (Nat.pos_of_ne_zero h)⟩ ∈ cs :=
      List.get_mem cs _ _
    constructor
    · intro ht
      rw [Inv] at ht
      have hinvc := ih.1 (invL_mem ht.2 _ hget)
      rw [Inv]
      constructor
      · intro x hx
        rw [List.mem_append] at hx
        rcases hx with hx | hx
        · exact containsO_unionPointO_mono (ht.1 x (List.mem_append_left _ hx))
        · rcases allPtsL_set cs _ _ x hx with hx2 | hx2
          · exact containsO_unionPointO_mono
              (ht.1 x (List.mem_append_right _ hx2))
          · rcases ih.2 x hx2 with hx3 | hx3
            · exact containsO_unionPointO_mono (ht.1 x
                (List.mem_append_right _ (allPts_subset_allPtsL hget x hx3)))
            · subst hx3
              exact containsO_unionPointO_self b x
      · exact invL_set _ ht.2 hinvc
    · intro x hx
      rw [allPts_mk, List.mem_append] at hx
      rw [allPts_mk]
      rcases hx with hx | hx
      · exact Or.inl (List.mem_append_left _ hx)
      · rcases allPtsL_set cs _ _ x hx with hx2 | hx2
        · exact Or.inl (List.mem_append_right _ hx2)
        · rcases ih.2 x hx2 with hx3 | hx3
          · exact Or.inl (List.mem_append_right _
              (allPts_subset_allPtsL hget x hx3))
          · exact Or.inr hx3

/-- Claim C3: after any sequence of InsertPoint calls starting from any
tree satisfying the bound invariant (in particular the constructor's
empty root), every node's bound contains every point stored in that
node's subtree. InsertPoint maintains this by expanding the bound of
every node along its descent path with the inserted point before
descending or appending. The split strategy is a parameter (its code is
not under src/); per the spec it must leave the invariant intact, and it
introduces no new points. -/
theorem c3_insert_bound_invariant (split : RTree → RTree)
    (eval : Option Box → Point → ℚ) (maxLeafSize : ℕ)
    (hsplit : ∀ u, Inv u → Inv (split u))
    (hspts : ∀ u, ∀ x ∈ allPts (split u), x ∈ allPts u)
    (qs : List Point) (t : RTree) (ht : Inv t) :
    Inv (qs.foldl (fun t2 q => insertPoint split eval maxLeafSize q t2) t) := by
  induction qs generalizing t with
  | nil => exact ht
  | cons q qs ih =>
    rw [List.foldl_cons]
    exact ih _
      ((insertPoint_inv split eval maxLeafSize hsplit hspts q t).1 ht)

/-- Witness for C3: the invariant holds for the empty root and is
preserved across a concrete three-point insertion sequence (leaf
capacity 2, identity split strategy, constant descent score). -/
theorem c3_insert_bound_invariant_witness :
    Inv (RTree.mk 0 none [] []) ∧
    Inv ([[(1 : ℚ)], [3], [2]].foldl
      (fun t2 q => insertPoint (fun u => u) (fun _ _ => 0) 2 q t2)
      (RTree.mk 0 none [] [])) := by
  have base : Inv (RTree.mk 0 none [] []) := by
    rw [Inv]
    constructor
    · intro x hx
      rw [allPtsL, List.append_nil] at hx
      cases hx
    · rw [InvL]
      exact trivial
  exact ⟨base, c3_insert_bound_invariant (fun u => u) (fun _ _ => 0) 2
    (fun _ h => h) (fun _ _ hx => hx) [[(1 : ℚ)], [3], [2]]
    (RTree.mk 0 none [] []) base⟩

/-- Claim C5 counterexample: building a RectangleTree from a dataset
with zero points does not fail — the constructor's insertion loop runs
zero times and returns the intact empty root (begin 0, empty bound, no
points, no children); no `EmptyDatasetError` exists on this path. -/
theorem c5_counterexample :
    rectBuild (fun u => u) (fun _ _ => 0) 20 [] = RTree.mk 0 none [] [] :=
  rfl

/-- Claim C5, amended: building a tree from a dataset with zero points
succeeds for every split strategy, descent heuristic and leaf capacity,
returning the empty-leaf root (no error is raised, and the result is a
complete, not partial, tree containing no points). -/
theorem c5_empty_dataset (split : RTree → RTree)
    (eval : Option Box → Point → ℚ) (maxLeafSize : ℕ) :
    rectBuild split eval maxLeafSize [] = RTree.mk 0 none [] [] ∧
    allPts (rectBuild split eval maxLeafSize []) = [] := by
  constructor
  · rfl
  · show allPts (RTree.mk 0 none [] []) = []
    rw [allPts_mk, allPtsL]
    rfl

/-- Claim C6: on a leaf node whose point count is strictly below
maxLeafSize, SplitNode passes its leaf assertion and returns with no
structural mutation — the node (and hence the tree) is unchanged, so a
repeated call changes nothing either (idempotence). -/
theorem c6_splitNode_noop (split : RTree → RTree) (maxLeafSize : ℕ)
    (t : RTree) (hleaf : t.children = [])
    (hcount : t.count < maxLeafSize) :
    splitNode split maxLeafSize t = some t := by
  unfold splitNode
  rw [hleaf]
  simp [hcount]

/-- Witness for C6: a concrete one-point leaf below capacity. -/
theorem c6_splitNode_noop_witness :
    (RTree.mk 0 none [[(1 : ℚ)]] []).children = [] ∧
    (RTree.mk 0 none [[(1 : ℚ)]] []).count < 5 ∧
    splitNode (fun u => u) 5 (RTree.mk 0 none [[(1 : ℚ)]] []) =
      some (RTree.mk 0 none [[(1 : ℚ)]] []) :=
  ⟨rfl, by rw [RTree.count]; simp [RTree.pts],
    c6_splitNode_noop (fun u => u) 5 _ rfl
      (by rw [RTree.count]; simp [RTree.pts])⟩

/-- Claim C7: calling SplitNode on a non-leaf fails its
`numChildren == 0` assertion and aborts the run (modelled as `none`)
rather than continuing on a corrupt tree; under the precondition that
the node is a leaf the assertion always holds and SplitNode returns a
result. -/
theorem c7_splitNode_assert (split : RTree → RTree) (maxLeafSize : ℕ)
    (t : RTree) :
    (t.children ≠ [] → splitNode split maxLeafSize t = none) ∧
    (t.children = [] → (splitNode split maxLeafSize t).isSome = true) := by
  constructor
  · intro h
    unfold splitNode
    rw [if_pos (fun h2 => h (List.length_eq_zero.mp h2))]
  · intro h
    unfold splitNode
    rw [h]
    by_cases hc : t.count < maxLeafSize
    · simp [hc]
    · simp [hc]

/-- Witness for C7: a concrete internal node aborts; a concrete leaf
passes the assertion. -/
theorem c7_splitNode_assert_witness :
    splitNode (fun u => u) 5
      (RTree.mk 0 none [] [RTree.mk 0 none [] []]) = none ∧
    (splitNode (fun u => u) 5 (RTree.mk 0 none [] [])).isSome = true :=
  ⟨(c7_splitNode_assert (fun u => u) 5 _).1
      (by rw [RTree.children]; exact List.cons_ne_nil _ _),
    (c7_splitNode_assert (fun u => u) 5 _).2 rfl⟩

/-- Claim C9: `End()` returns begin + count exactly when the node has at
least one child (`numChildren != 0`); on every leaf it instead reads
`children[numChildren - 1]` with `numChildren = 0`, an out-of-bounds
vector access (modelled as `none`), so `End()` is not safe on any leaf
— the leaf/internal condition is inverted relative to accessors such as
`NumPoints` and `IsLeaf`. -/
theorem c9_end_inverted (t : RTree) :
    (t.children ≠ [] → nodeEnd t = some (t.begin + t.count)) ∧
    (t.children = [] → nodeEnd t = none) := by
  constructor
  · intro h
    unfold nodeEnd
    rw [if_pos (fun h2 => h (List.length_eq_zero.mp h2))]
  · intro h
    unfold nodeEnd
    rw [h]
    simp

/-- Witness for C9: a concrete internal node yields begin + count; a
concrete leaf yields the out-of-bounds failure. -/
theorem c9_end_inverted_witness :
    nodeEnd (RTree.mk 3 none [[(1 : ℚ)], [2]] [RTree.mk 0 none [] []]) =
      some 5 ∧
    nodeEnd (RTree.mk 3 none [[(1 : ℚ)], [2]] []) = none :=
  ⟨(c9_end_inverted _).1 (by rw [RTree.children]; exact List.cons_ne_nil _ _),
    (c9_end_inverted _).2 rfl⟩

/-- Claim C10: `FurthestPointDistance()` returns exactly 0 for every
internal (non-leaf) node, and half the bound's diameter for every leaf
node, for any diameter function (the `HRectBound::Diameter`
implementation is not under src/). -/
theorem c10_furthest_point_distance (diam : Option Box → ℚ) (t : RTree) :
    (t.children ≠ [] → FurthestPointDistance diam t = 0) ∧
    (t.children = [] →
      FurthestPointDistance diam t = (1 / 2) * diam t.bound) := by
  constructor
  · intro h
    unfold FurthestPointDistance IsLeafR
    have h2 : (t.children.length == 0) = false := by
      simp [List.length_eq_zero]
      exact h
    rw [h2]
    rfl
  · intro h
    unfold FurthestPointDistance IsLeafR
    rw [h]
    rfl

/-- Witness for C10: a concrete internal node gives 0; a concrete leaf
gives half its diameter under a concrete diameter function. -/
theorem c10_furthest_point_distance_witness :
    FurthestPointDistance (fun _ => 6)
      (RTree.mk 0 none [] [RTree.mk 0 none [] []]) = 0 ∧
    FurthestPointDistance (fun _ => 6) (RTree.mk 0 none [[(1 : ℚ)]] []) =
      (1 / 2) * 6 :=
  ⟨(c10_furthest_point_distance (fun _ => 6) _).1
      (by rw [RTree.children]; exact List.cons_ne_nil _ _),
    (c10_furthest_point_distance (fun _ => 6) _).2 rfl⟩

/-! ## StatFixer (nbr_utils.h) -/

/-- A fastlib tree node as `StatFixer` sees it: a statistic, a bound,
the begin/count of the node's point range, and 0 or exactly 2
children. -/
inductive KNode (σ : Type) where
  | leaf (stat : σ) (bound : Box) (begin : ℕ) (count : ℕ)
  | node (stat : σ) (bound : Box) (begin : ℕ) (count : ℕ)
      (l r : KNode σ)

/-- The statistic operations, abstracting over `Param`: `Reset`,
`Accumulate(param, point)`, `Accumulate(param, child stat, child bound,
child count)`, `Postprocess(param, bound, count)`. -/
structure StatOps (σ : Type) where
  reset : σ → σ
  accPoint : σ → Point → σ
  accChild : σ → σ → Box → ℕ → σ
  post : σ → Box → ℕ → σ

def KNode.stat {σ : Type} : KNode σ → σ
  | KNode.leaf s _ _ _ => s
  | KNode.node s _ _ _ _ _ => s

def KNode.bnd {σ : Type} : KNode σ → Box
  | KNode.leaf _ b _ _ => b
  | KNode.node _ b _ _ _ _ => b

def KNode.count {σ : Type} : KNode σ → ℕ
  | KNode.leaf _ _ _ c => c
  | KNode.node _ _ _ c _ _ => c

def KNode.isLeaf {σ : Type} : KNode σ → Bool
  | KNode.leaf _ _ _ _ => true
  | KNode.node _ _ _ _ _ _ => false

/-- `StatFixer::FixRecursively_`, line for line: `Reset`; for an
internal node, for each of the two children recurse into it and then
accumulate its statistic, bound and count, then `Postprocess` (the call
inside the internal branch, nbr_utils.h line 64); for a leaf, iterate
`Accumulate` over the owned point range `[begin, begin + count)`; and in
both cases the shared trailing `Postprocess` of line 74. -/
def FixRecursively {σ : Type} (ops : StatOps σ) (pts : List Point) :
    KNode σ → KNode σ
  | KNode.leaf s b beg cnt =>
    let s0 := ops.reset s
    let s1 := ((pts.drop beg).take cnt).foldl ops.accPoint s0
    KNode.leaf (ops.post s1 b cnt) b beg cnt
  | KNode.node s b beg cnt l r =>
    let s0 := ops.reset s
    let l2 := FixRecursively ops pts l
    let s1 := ops.accChild s0 l2.stat l2.bnd l2.count
    let r2 := FixRecursively ops pts r
    let s2 := ops.accChild s1 r2.stat r2.bnd r2.count
    let s3 := ops.post s2 b cnt
    KNode.node (ops.post s3 b cnt) b beg cnt l2 r2

/-- The instrumented statistic: it records how many times `Postprocess`
has been applied to this node since its last `Reset`. -/
def countOps : StatOps ℕ where
  reset := fun _ => 0
  accPoint := fun s _ => s
  accChild := fun s _ _ _ => s
  post := fun s _ _ => s + 1

theorem foldl_accPoint_const {s0 : ℕ} :
    ∀ (l : List Point), List.foldl countOps.accPoint s0 l = s0 := by
  intro l
  induction l with
  | nil => rfl
  | cons p l ih => exact ih

/-- Claim C4, evaluation of the code at the failing input: with the
statistic instrumented to count `Postprocess` applications since the
last `Reset`, `FixRecursively_` leaves every leaf with exactly one
application, but every internal node with exactly two — the call inside
the internal branch (nbr_utils.h line 64) followed by the shared
trailing call (line 74) — where the spec demands exactly one. -/
theorem c4_double_postprocess :
    (∀ (pts : List Point) (t : KNode ℕ),
      (FixRecursively countOps pts t).stat =
        if t.isLeaf then 1 else 2) ∧ (2 : ℕ) ≠ 1 := by
  constructor
  · intro pts t
    cases t with
    | leaf s b beg cnt =>
      rw [FixRecursively]
      show countOps.post
        (((pts.drop beg).take cnt).foldl countOps.accPoint
          (countOps.reset s)) b cnt = if (KNode.leaf s b beg cnt).isLeaf then 1 else 2
      rw [foldl_accPoint_const]
      rfl
    | node s b beg cnt l r =>
      rw [FixRecursively]
      rfl
  · decide

/-! ## Work-partitioning defaults (nbr_utils.h) -/

/-- `fx_param_int(module, name, default)`: the supplied value, or the
default when the parameter is absent. -/
def fxParamInt (supplied : Option ℤ) (dflt : ℤ) : ℤ := supplied.getD dflt

/-- The grain count the local `ThreadedDualTreeSolver::Solve` requests:
`fx_param_int(module, "n_grains", n_threads == 1 ? 1 : n_threads * 3)`. -/
def localNGrains (suppliedGrains : Option ℤ) (nThreads : ℤ) : ℤ :=
  fxParamInt suppliedGrains (if nThreads = 1 then 1 else nThreads * 3)

/-- The grain count the distributed
`RpcMonochromaticDualTreeRunner::SetupMaster_` requests:
`fx_param_int(module, "n_grains", n_threads * n_peers * 3)`. -/
def distributedNGrains (suppliedGrains : Option ℤ)
    (nThreads nPeers : ℤ) : ℤ :=
  fxParamInt suppliedGrains (nThreads * nPeers * 3)

/-- Claim C8 counterexample: with n_threads = 1 and n_grains not
supplied, the local solver requests 1 grain — not 1 * 3 = 3 as the
claim's "n_threads * 3 for every value of n_threads" demands. -/
theorem c8_counterexample :
    localNGrains none 1 = 1 ∧ (1 : ℤ) ≠ 1 * 3 := by
  constructor
  · rfl
  · decide

/-- Claim C8, amended: when n_grains is not supplied, the local solver
requests 1 grain when n_threads = 1 and n_threads * 3 grains otherwise,
while the distributed runner requests n_threads * n_peers * 3 for every
n_threads and n_peers. -/
theorem c8_default_grains (nThreads nPeers : ℤ) :
    localNGrains none nThreads =
      (if nThreads = 1 then 1 else nThreads * 3) ∧
    distributedNGrains none nThreads nPeers = nThreads * nPeers * 3 :=
  ⟨rfl, rfl⟩
